import Mathlib

/-!
Shallow embedding of the Go HLS video-streaming server
(`lib/lib.go`, `lib/converter.go`, `main.go`).

The filesystem state that the program treats as its job store is modelled
explicitly: the HLS root is a list of named entries (directories with their
contained file names, or plain files), and the upload area is a list of file
names.  The external transcoder (`ffmpeg`) and I/O failures are modelled as
oracles passed to the orchestration function.
-/

set_option maxRecDepth 10000

namespace VideoStreamer

/-! ### Decimal rendering (embedding of Go's `fmt.Sprintf("%d", n)`) -/

/-- The character for the decimal digit `d % 10`. -/
def digitChar (d : Nat) : Char := Char.ofNat (48 + d % 10)

/-- Numeric value of a digit character. -/
def digitVal (c : Char) : Nat := c.toNat - 48

/-- Fuel-driven decimal rendering accumulator: renders `n` in decimal in
front of `acc`. -/
def decAux : Nat → Nat → List Char → List Char
  | 0, _, acc => acc
  | fuel + 1, n, acc =>
    if n < 10 then digitChar n :: acc
    else decAux fuel (n / 10) (digitChar (n % 10) :: acc)

/-- Decimal digit string of `n`, as Go's `%d` renders a non-negative value. -/
def decRepr (n : Nat) : List Char := decAux (n + 1) n []

/-- `%d` as a `String`. -/
def decStr (n : Nat) : String := ⟨decRepr n⟩

/-- Value of a digit-character list read in base 10. -/
def digitsVal (l : List Char) : Nat := l.foldl (fun a c => 10 * a + digitVal c) 0

/-! ### Go string helpers used by the handlers -/

/-- Embedding of Go `strings.TrimSuffix`: removes `suff` from the end of `s`
when present, otherwise returns `s` unchanged. -/
def trimSuffix (s suff : String) : String :=
  if suff.data.isSuffixOf s.data then ⟨s.data.take (s.data.length - suff.data.length)⟩
  else s

/-- Embedding of Go `filepath.Ext`: the suffix of the final path element
beginning at the final dot, empty if there is none. -/
def goExt (s : String) : String :=
  let rev := s.data.reverse
  let seg := rev.takeWhile (fun c => c != '.' && c != '/')
  match rev.drop seg.length with
  | '.' :: _ => ⟨'.' :: seg.reverse⟩
  | _ => ""

/-- The job id the reconvert handler derives from an uploaded file name:
`id := strings.TrimSuffix(filename, filepath.Ext(filename))`. -/
def deriveID (filename : String) : String := trimSuffix filename (goExt filename)

/-! ### Variants and the master playlist (from `lib/converter.go`) -/

/-- `variant` from `lib/converter.go`: parameters of one HLS quality stream. -/
structure variant where
  name : String
  height : String
  vbitrate : String
  width : String
deriving DecidableEq, Repr

/-- `HLS_VARIANTS` from `lib/converter.go`. -/
def HLS_VARIANTS : List variant :=
  [⟨"360p", "360", "800k", "640"⟩,
   ⟨"540p", "540", "1800k", "960"⟩,
   ⟨"720p", "720", "3500k", "1280"⟩,
   ⟨"1080p", "1080", "6000k", "1920"⟩]

/-- `bandwidth := strings.TrimSuffix(v.vbitrate, "k") + "000"` (line 323). -/
def bandwidthOf (v : variant) : String := trimSuffix v.vbitrate "k" ++ "000"

/-- `streamName := fmt.Sprintf("stream_%s.m3u8", v.name)`. -/
def subPlaylistFile (v : variant) : String := "stream_" ++ v.name ++ ".m3u8"

/-- The `#EXT-X-STREAM-INF` line written for one variant (lines 325–328). -/
def streamInfLine (v : variant) : String :=
  "#EXT-X-STREAM-INF:BANDWIDTH=" ++ bandwidthOf v ++ ",RESOLUTION=" ++ v.width ++
    "x" ++ v.height ++ ",NAME=\"" ++ v.name ++ "\""

/-- The per-variant portion of the master playlist: the loop of lines 322–330,
one `#EXT-X-STREAM-INF` line plus the sub-playlist file name per variant. -/
def manifestBody : List variant → String
  | [] => ""
  | v :: vs => streamInfLine v ++ "\n" ++ subPlaylistFile v ++ "\n" ++ manifestBody vs

/-- The full master playlist built by `ConvertToHLS` (lines 319–330). -/
def buildManifest (vs : List variant) : String :=
  "#EXTM3U\n#EXT-X-VERSION:3\n" ++ manifestBody vs

/-- Splitting a character list at newline characters. -/
def splitOnNl : List Char → List (List Char)
  | [] => [[]]
  | c :: cs =>
    let r := splitOnNl cs
    if c = '\n' then [] :: r else (c :: r.headD []) :: r.tail

/-- `pat` is an initial run of `l`. -/
def leadsWith : List Char → List Char → Bool
  | [], _ => true
  | _ :: _, [] => false
  | p :: ps, c :: cs => p == c && leadsWith ps cs

/-- `fmt.Sprintf("%03d", k)`: `k` in decimal, zero-padded to width 3. -/
def pad3 (k : Nat) : String :=
  (if k < 10 then "00" else if k < 100 then "0" else "") ++ decStr k

/-- A segment file name `<variantName>_segment_<3-digit-index>.ts` as produced
by the `-hls_segment_filename` pattern of line 279. -/
def segmentFileName (v : variant) (k : Nat) : String :=
  v.name ++ "_segment_" ++ pad3 k ++ ".ts"

/-- `f` matches variant `v`'s segment-file naming pattern. -/
def isSegmentFile (v : variant) (f : String) : Prop :=
  ∃ k, k < 1000 ∧ f = segmentFileName v k

/-! ### The identifier generator (from `UploadHandler`, line 181) -/

/-- `id := fmt.Sprintf("video_%d_%d", time.Now().UnixNano(), counter.Add(1))`:
the id produced when the timestamp reads `t` and the counter returns `c`. -/
def newID (t c : Nat) : String := "video_" ++ decStr t ++ "_" ++ decStr c

/-- Safety of a string as a single filesystem name component: non-empty, not a
dot-link, and free of separators and NUL. -/
def isSafeName (s : String) : Prop :=
  s ≠ "" ∧ s ≠ "." ∧ s ≠ ".." ∧ ∀ c ∈ s.data, c ≠ '/' ∧ c.toNat ≠ 0

/-! ### Filesystem model: the HLS root directory -/

/-- One entry directly under the HLS root: a name, whether the entry is a
directory, and (for directories) the file names it contains. -/
structure RootEntry where
  name : String
  isDir : Bool
  files : List String
deriving DecidableEq, Repr

/-- The HLS root: the list of entries directly under it. -/
abbrev FS := List RootEntry

/-- `os.RemoveAll(filepath.Join(hlsDir, id))`: removes the entry named `id`
(and everything inside it); succeeds when nothing is there. -/
def removeAll (fs : FS) (id : String) : FS :=
  fs.filter (fun e => !(e.name == id))

/-- `os.MkdirAll(outputDir, 0755)`: creates the directory when the name is
free and is a no-op when an entry of that name exists. -/
def mkdirAll (fs : FS) (id : String) : FS :=
  if fs.any (fun e => e.name == id) then fs else fs ++ [⟨id, true, []⟩]

/-- Applies `g` to the contents of the directory named `id`. -/
def updateDir (fs : FS) (id : String) (g : List String → List String) : FS :=
  fs.map (fun e => if e.name == id && e.isDir then { e with files := g e.files } else e)

/-- A file coming into existence in a directory's listing: creating a file
that already exists truncates it, leaving the listing unchanged. -/
def addFileL (files : List String) (f : String) : List String :=
  if f ∈ files then files else files ++ [f]

/-- Writing file `f` into the directory named `id`. -/
def writeFile (fs : FS) (id : String) (f : String) : FS :=
  updateDir fs id (fun files => addFileL files f)

/-- Writing a batch of files (in order) into the directory named `id`. -/
def writeFiles (fs : FS) (id : String) (l : List String) : FS :=
  updateDir fs id (fun files => l.foldl addFileL files)

/-- The contents of the job directory named `id`, when it exists. -/
def jobFiles (fs : FS) (id : String) : Option (List String) :=
  (fs.find? (fun e => e.name == id && e.isDir)).map (·.files)

/-- Job status, derived by probing the filesystem (spec §3). -/
inductive JobStatus where
  | Absent
  | Processing
  | Ready
deriving DecidableEq, Repr

/-- The status probe of `RootHandler` (lines 117–129): a job is listed from
its directory, and it is ready exactly when `os.Stat` of
`<root>/<id>/master.m3u8` succeeds. -/
def statusOf (fs : FS) (id : String) : JobStatus :=
  match fs.find? (fun e => e.name == id && e.isDir) with
  | none => .Absent
  | some e => if "master.m3u8" ∈ e.files then .Ready else .Processing

/-- The job list computed by `RootHandler`'s scan of the HLS root
(lines 117–136): every directory entry, ready iff it holds `master.m3u8`;
non-directory entries are skipped. -/
def listJobs (fs : FS) : List (String × JobStatus) :=
  (fs.filter (fun e => e.isDir)).map
    (fun e => (e.name, if "master.m3u8" ∈ e.files then JobStatus.Ready else JobStatus.Processing))

/-- Spec-side predicate: `<root>/<id>` exists as a directory. -/
def dirExists (fs : FS) (id : String) : Prop :=
  ∃ e ∈ fs, e.name = id ∧ e.isDir = true

/-- Spec-side predicate: `<root>/<id>` is a directory containing
`master.m3u8`. -/
def masterExists (fs : FS) (id : String) : Prop :=
  ∃ e ∈ fs, e.name = id ∧ e.isDir = true ∧ "master.m3u8" ∈ e.files

/-! ### The conversion orchestrator (`ConvertToHLS`, lines 267–341) -/

/-- Outcome of one `ffmpeg` invocation: whether `cmd.Run()` returned nil, and
the files the subprocess left in the output directory. -/
structure EncodeOutcome where
  ok : Bool
  written : List String
deriving DecidableEq, Repr

/-- The encode loop of lines 277–310: runs the variants in order, stopping at
the first failure.  Returns the filesystem after the loop, the state observed
after each attempted invocation, the attempted variants, and the `success`
flag. -/
def encodeLoop (fs : FS) (id : String) (enc : variant → EncodeOutcome) :
    List variant → FS × List FS × List variant × Bool
  | [] => (fs, [], [], true)
  | v :: vs =>
    let fs1 := writeFiles fs id (enc v).written
    if (enc v).ok then
      let r := encodeLoop fs1 id enc vs
      (r.1, fs1 :: r.2.1, v :: r.2.2.1, r.2.2.2)
    else (fs1, [fs1], [v], false)

/-- Result of one orchestration run: the final filesystem, the filesystem
states observed at each step (initial state, after the reset, after the fresh
directory, after each attempted encode, final), and the attempted variants. -/
structure RunResult where
  final : FS
  trace : List FS
  attempted : List variant
deriving DecidableEq, Repr

/-- `ConvertToHLS(inputPath, id)` (lines 267–341) as a state transformer on
the HLS root.  `enc` gives each variant's subprocess outcome and `writeOk`
whether `os.WriteFile` of the master playlist succeeds. -/
def convertToHLS (fs : FS) (id : String) (enc : variant → EncodeOutcome)
    (writeOk : Bool) : RunResult :=
  let fs1 := removeAll fs id
  let fs2 := mkdirAll fs1 id
  let r := encodeLoop fs2 id enc HLS_VARIANTS
  let fs3 := r.1
  if r.2.2.2 then
    if writeOk then
      let fs4 := writeFile fs3 id "master.m3u8"
      ⟨fs4, fs :: fs1 :: fs2 :: r.2.1 ++ [fs4], r.2.2.1⟩
    else
      let fs4 := removeAll fs3 id
      ⟨fs4, fs :: fs1 :: fs2 :: r.2.1 ++ [fs4], r.2.2.1⟩
  else
    let fs4 := removeAll fs3 id
    ⟨fs4, fs :: fs1 :: fs2 :: r.2.1 ++ [fs4], r.2.2.1⟩

/-! ### HTTP handler models (`lib/lib.go`) -/

/-- The user-visible response of a handler. -/
inductive Resp where
  | redirect
  | badRequest
  | notFound
deriving DecidableEq, Repr

/-- `DeleteHLSHandler` (lines 52–75), given the posted `id`: rejects an empty
id, otherwise removes the job directory (logging any error) and redirects. -/
def deleteHLSHandler (fs : FS) (id : String) : FS × Resp :=
  if id = "" then (fs, .badRequest) else (removeAll fs id, .redirect)

/-- `os.Remove(filepath.Join(uploadDir, filename))`: removes the named upload
if present; on a missing file it errors, leaving the area unchanged. -/
def removeUpload (ups : List String) (name : String) : List String :=
  ups.filter (fun f => !(f == name))

/-- `DeleteUploadHandler` (lines 78–102), given the posted `filename`: rejects
an empty name, otherwise deletes the upload (logging any error) and
redirects. -/
def deleteUploadHandler (ups : List String) (name : String) : List String × Resp :=
  if name = "" then (ups, .badRequest) else (removeUpload ups name, .redirect)

/-- Possible results of an `os.Stat` call: success, a does-not-exist error,
or any other error (permission, I/O, ...). -/
inductive StatOutcome where
  | found
  | notFound
  | failed
deriving DecidableEq, Repr

/-- `os.Stat` on `<root>/<id>` against the modelled filesystem, in an
environment with no I/O faults. -/
def statEntry (fs : FS) (id : String) : StatOutcome :=
  if fs.any (fun e => e.name == id) then .found else .notFound

/-- What `ReconvertHandler` decides to do. -/
structure ReconvertResult where
  resp : Resp
  started : Option String
deriving DecidableEq, Repr

/-- `ReconvertHandler` (lines 205–236), given the posted file name and the
outcomes of its two `os.Stat` probes (output directory, then input file): a
conversion is started only when the output-directory probe returns a definite
does-not-exist error (`os.IsNotExist`). -/
def reconvertHandler (filename : String) (stOut stIn : StatOutcome) : ReconvertResult :=
  if filename = "" then ⟨.badRequest, none⟩
  else if stOut ≠ .notFound then ⟨.redirect, none⟩
  else if stIn = .notFound then ⟨.notFound, none⟩
  else ⟨.redirect, some (deriveID filename)⟩

/-! ### Derived notions used to state and prove the claims -/

/-- The entries of the HLS root carrying a given name. -/
def entriesNamed (fs : FS) (id : String) : FS :=
  fs.filter (fun e => e.name == id)

/-- The variants a run of the encode loop attempts: everything up to and
including the first failing one. -/
def attemptedOf (enc : variant → EncodeOutcome) : List variant → List variant
  | [] => []
  | v :: vs => if (enc v).ok then v :: attemptedOf enc vs else [v]

/-- Whether the encode loop leaves `success` true. -/
def runSuccess (enc : variant → EncodeOutcome) (vs : List variant) : Bool :=
  vs.all (fun v => (enc v).ok)

/-- The directory listing the encode loop accumulates over the attempted
variants, starting from `L`. -/
def loopFiles (enc : variant → EncodeOutcome) (vs : List variant) (L : List String) :
    List String :=
  (attemptedOf enc vs).foldl (fun fl v => (enc v).written.foldl addFileL fl) L

/-- A concrete encoder oracle whose `540p` invocation fails, the others
producing their sub-playlist. -/
def encFail : variant → EncodeOutcome :=
  fun v => ⟨v.name != "540p", ["stream_" ++ v.name ++ ".m3u8"]⟩

/-- A concrete always-succeeding encoder oracle producing one sub-playlist
and one segment per variant. -/
def encGood : variant → EncodeOutcome :=
  fun v => ⟨true, ["stream_" ++ v.name ++ ".m3u8", v.name ++ "_segment_000.ts"]⟩

/-- A variant whose fields are free of newline characters. -/
def noNl (v : variant) : Prop :=
  '\n' ∉ v.name.data ∧ '\n' ∉ v.vbitrate.data ∧ '\n' ∉ v.width.data ∧ '\n' ∉ v.height.data

instance (v : variant) : Decidable (noNl v) := by
  unfold noNl
  infer_instance

/-! ### Lemmas: Go string helpers -/

theorem trimSuffix_append (d : String) (suff : String) :
    trimSuffix (d ++ suff) suff = d := by
  unfold trimSuffix
  have hsuf : suff.data.isSuffixOf (d ++ suff).data = true := by
    simp [String.data_append, List.isSuffixOf_iff_suffix]
  rw [hsuf]
  simp [String.data_append]

theorem mem_trimSuffix (c : Char) (s suff : String) (h : c ∈ (trimSuffix s suff).data) :
    c ∈ s.data := by
  unfold trimSuffix at h
  by_cases hs : suff.data.isSuffixOf s.data = true
  · rw [hs] at h
    simp only [if_true] at h
    exact List.take_subset _ _ h
  · simp [hs] at h
    exact h

theorem mem_bandwidthOf (c : Char) (v : variant) (h : c ∈ (bandwidthOf v).data) :
    c ∈ v.vbitrate.data ∨ c = '0' := by
  unfold bandwidthOf at h
  rw [String.data_append] at h
  rcases List.mem_append.1 h with h1 | h1
  · exact Or.inl (mem_trimSuffix c _ _ h1)
  · right
    have : ("000" : String).data = ['0', '0', '0'] := rfl
    rw [this] at h1
    simpa using h1

/-! ### Lemmas: line splitting -/

theorem splitOnNl_cons (c : Char) (cs : List Char) :
    splitOnNl (c :: cs) =
      if c = '\n' then [] :: splitOnNl cs
      else (c :: (splitOnNl cs).headD []) :: (splitOnNl cs).tail := rfl

theorem splitOnNl_append (a rest : List Char) (h : '\n' ∉ a) :
    splitOnNl (a ++ '\n' :: rest) = a :: splitOnNl rest := by
  induction a with
  | nil => rw [List.nil_append, splitOnNl_cons]; simp
  | cons c cs ih =>
    have hc : c ≠ '\n' := fun hcc => h (hcc ▸ List.mem_cons_self c cs)
    have hcs : '\n' ∉ cs := fun hm => h (List.mem_cons_of_mem c hm)
    rw [List.cons_append, splitOnNl_cons, ih hcs]
    simp [hc]

/-! ### Lemmas: leadsWith -/

theorem leadsWith_append (p l r : List Char) (h : leadsWith p l = true) :
    leadsWith p (l ++ r) = true := by
  induction p generalizing l with
  | nil => simp [leadsWith]
  | cons x xs ih =>
    cases l with
    | nil => simp [leadsWith] at h
    | cons y ys =>
      simp only [leadsWith, Bool.and_eq_true] at h
      simp only [List.cons_append, leadsWith, Bool.and_eq_true]
      exact ⟨h.1, ih ys h.2⟩

/-! ### Lemmas: the master playlist -/

theorem nl_not_mem_streamInfLine (v : variant) (h : noNl v) :
    '\n' ∉ (streamInfLine v).data := by
  intro hm
  simp only [streamInfLine, String.data_append, List.append_assoc, List.mem_append] at hm
  rcases hm with hm | hm | hm | hm | hm | hm | hm | hm | hm
  · exact absurd hm (by decide)
  · rcases mem_bandwidthOf _ _ hm with h0 | h0
    · exact h.2.1 h0
    · exact absurd h0 (by decide)
  · exact absurd hm (by decide)
  · exact h.2.2.1 hm
  · exact absurd hm (by decide)
  · exact h.2.2.2 hm
  · exact absurd hm (by decide)
  · exact h.1 hm
  · exact absurd hm (by decide)

theorem nl_not_mem_subPlaylistFile (v : variant) (h : noNl v) :
    '\n' ∉ (subPlaylistFile v).data := by
  intro hm
  simp only [subPlaylistFile, String.data_append, List.mem_append] at hm
  rcases hm with (hm | hm) | hm
  · exact absurd hm (by decide)
  · exact h.1 hm
  · exact absurd hm (by decide)

theorem splitOnNl_manifestBody (vs : List variant) (h : ∀ v ∈ vs, noNl v) :
    splitOnNl (manifestBody vs).data =
      vs.flatMap (fun v => [(streamInfLine v).data, (subPlaylistFile v).data]) ++ [[]] := by
  induction vs with
  | nil => simp [manifestBody, splitOnNl]
  | cons v vs ih =>
    have hv : noNl v := h v (List.mem_cons_self v vs)
    have hvs : ∀ w ∈ vs, noNl w := fun w hw => h w (List.mem_cons_of_mem v hw)
    have hdata : (manifestBody (v :: vs)).data =
        (streamInfLine v).data ++ '\n' ::
          ((subPlaylistFile v).data ++ '\n' :: (manifestBody vs).data) := by
      show (streamInfLine v ++ "\n" ++ subPlaylistFile v ++ "\n" ++ manifestBody vs).data = _
      simp [String.data_append, List.append_assoc]
    rw [hdata, splitOnNl_append _ _ (nl_not_mem_streamInfLine v hv),
      splitOnNl_append _ _ (nl_not_mem_subPlaylistFile v hv), ih hvs]
    simp

theorem splitOnNl_buildManifest (vs : List variant) (h : ∀ v ∈ vs, noNl v) :
    splitOnNl (buildManifest vs).data =
      "#EXTM3U".data :: "#EXT-X-VERSION:3".data ::
        (vs.flatMap (fun v => [(streamInfLine v).data, (subPlaylistFile v).data]) ++ [[]]) := by
  have hlit : ("#EXTM3U\n#EXT-X-VERSION:3\n" : String).data =
      "#EXTM3U".data ++ '\n' :: ("#EXT-X-VERSION:3".data ++ ['\n']) := by decide
  have hdata : (buildManifest vs).data =
      "#EXTM3U".data ++ '\n' :: ("#EXT-X-VERSION:3".data ++ '\n' :: (manifestBody vs).data) := by
    unfold buildManifest
    rw [String.data_append, hlit]
    simp [List.append_assoc]
  rw [hdata, splitOnNl_append _ _ (by decide), splitOnNl_append _ _ (by decide),
    splitOnNl_manifestBody vs h]

theorem leadsWith_streamInfLine (v : variant) :
    leadsWith "#EXT-X-STREAM-INF".data (streamInfLine v).data = true := by
  have hdata : (streamInfLine v).data =
      "#EXT-X-STREAM-INF:BANDWIDTH=".data ++
        ((bandwidthOf v).data ++ (",RESOLUTION=".data ++ (v.width.data ++
          ("x".data ++ (v.height.data ++ (",NAME=\"".data ++
            (v.name.data ++ "\"".data))))))) := by
    simp [streamInfLine, String.data_append, List.append_assoc]
  rw [hdata]
  exact leadsWith_append _ _ _ (by decide)

theorem leadsWith_subPlaylistFile (v : variant) :
    leadsWith "#EXT-X-STREAM-INF".data (subPlaylistFile v).data = false := by
  have hs : ("stream_" : String).data = 's' :: "tream_".data := by decide
  have hdata : (subPlaylistFile v).data =
      's' :: ("tream_".data ++ (v.name.data ++ ".m3u8".data)) := by
    unfold subPlaylistFile
    rw [String.data_append, String.data_append, hs]
    simp [List.append_assoc]
  have hpat : ("#EXT-X-STREAM-INF" : String).data = '#' :: "EXT-X-STREAM-INF".data := by decide
  rw [hdata, hpat]
  have hne : (('#' : Char) == 's') = false := by decide
  simp [leadsWith, hne]

theorem countP_manifest (vs : List variant) :
    (vs.flatMap (fun v => [(streamInfLine v).data, (subPlaylistFile v).data]) ++ [[]]).countP
      (leadsWith "#EXT-X-STREAM-INF".data) = vs.length := by
  induction vs with
  | nil => decide
  | cons v vs ih =>
    simp only [List.flatMap_cons, List.cons_append, List.append_assoc, List.nil_append]
    rw [List.countP_cons, List.countP_cons, leadsWith_streamInfLine, leadsWith_subPlaylistFile]
    simp only [List.flatMap_cons, List.cons_append, List.append_assoc, List.nil_append] at ih
    rw [ih]
    simp

/-! ### Lemmas: basic filesystem operations -/

theorem mem_removeAll_ne (fs : FS) (id : String) :
    ∀ e ∈ removeAll fs id, e.name ≠ id := by
  intro e he
  have h := (List.mem_filter.1 he).2
  simpa using h

theorem entriesNamed_removeAll (fs : FS) (id : String) :
    entriesNamed (removeAll fs id) id = [] := by
  unfold entriesNamed removeAll
  rw [List.filter_filter]
  simp

theorem removeAll_any_false (fs : FS) (id : String) :
    (removeAll fs id).any (fun e => e.name == id) = false := by
  rw [List.any_eq_false]
  intro e he
  simpa using mem_removeAll_ne fs id e he

theorem entriesNamed_reset (fs : FS) (id : String) :
    entriesNamed (mkdirAll (removeAll fs id) id) id = [⟨id, true, []⟩] := by
  unfold mkdirAll
  rw [removeAll_any_false]
  simp only [Bool.false_eq_true, if_false]
  unfold entriesNamed
  rw [List.filter_append, ← entriesNamed.eq_1, entriesNamed_removeAll]
  simp

theorem entriesNamed_updateDir (fs : FS) (id : String) (g : List String → List String) :
    entriesNamed (updateDir fs id g) id =
      (entriesNamed fs id).map (fun e => if e.isDir then { e with files := g e.files } else e) := by
  unfold updateDir entriesNamed
  rw [List.filter_map]
  have hf : ((fun e : RootEntry => e.name == id) ∘
      (fun e => if e.name == id && e.isDir then { e with files := g e.files } else e)) =
      (fun e : RootEntry => e.name == id) := by
    funext e
    by_cases h1 : e.name = id <;> by_cases h2 : e.isDir = true <;> simp [h1, h2]
  rw [hf]
  apply List.map_congr_left
  intro e he
  have hn : (e.name == id) = true := (List.mem_filter.1 he).2
  by_cases hd : e.isDir <;> simp [hn, hd]

theorem entriesNamed_updateDir_single (fs : FS) (id : String) (g : List String → List String)
    (L : List String) (h : entriesNamed fs id = [⟨id, true, L⟩]) :
    entriesNamed (updateDir fs id g) id = [⟨id, true, g L⟩] := by
  rw [entriesNamed_updateDir, h]
  simp

theorem find?_matchDir (fs : FS) (id : String) :
    fs.find? (fun e => e.name == id && e.isDir) = (entriesNamed fs id).find? (fun e => e.isDir) := by
  induction fs with
  | nil => rfl
  | cons e fs ih =>
    unfold entriesNamed at ih ⊢
    by_cases hn : (e.name == id) = true
    · have hfc : List.filter (fun e => e.name == id) (e :: fs) =
          e :: List.filter (fun e => e.name == id) fs := by
        simp [List.filter_cons, hn]
      rw [hfc]
      by_cases hd : e.isDir = true
      · have hc : (e.name == id && e.isDir) = true := by simp [hn, hd]
        rw [List.find?_cons_of_pos (p := fun x : RootEntry => x.name == id && x.isDir) fs hc,
          List.find?_cons_of_pos (p := fun x : RootEntry => x.isDir) _ hd]
      · have hc : (e.name == id && e.isDir) = false := by simp [hd]
        rw [List.find?_cons_of_neg (p := fun x : RootEntry => x.name == id && x.isDir) fs (by simp [hc]),
          List.find?_cons_of_neg (p := fun x : RootEntry => x.isDir) _ (by simp [hd])]
        exact ih
    · have hc : (e.name == id && e.isDir) = false := by simp [hn]
      have hfc : List.filter (fun e => e.name == id) (e :: fs) =
          List.filter (fun e => e.name == id) fs := by
        simp [List.filter_cons, hn]
      rw [hfc, List.find?_cons_of_neg (p := fun x : RootEntry => x.name == id && x.isDir) fs (by simp [hc])]
      exact ih

theorem statusOf_of_dir (fs : FS) (id : String) (L : List String)
    (h : entriesNamed fs id = [⟨id, true, L⟩]) :
    statusOf fs id = if "master.m3u8" ∈ L then JobStatus.Ready else JobStatus.Processing := by
  unfold statusOf
  rw [find?_matchDir, h]
  rfl

theorem statusOf_of_nil (fs : FS) (id : String) (h : entriesNamed fs id = []) :
    statusOf fs id = JobStatus.Absent := by
  unfold statusOf
  rw [find?_matchDir, h]
  rfl

theorem jobFiles_of_dir (fs : FS) (id : String) (L : List String)
    (h : entriesNamed fs id = [⟨id, true, L⟩]) :
    jobFiles fs id = some L := by
  unfold jobFiles
  rw [find?_matchDir, h]
  rfl

/-! ### Lemmas: file insertion -/

theorem mem_addFileL (x f : String) (l : List String) :
    x ∈ addFileL l f ↔ x ∈ l ∨ x = f := by
  unfold addFileL
  by_cases h : f ∈ l
  · simp only [h, if_true]
    constructor
    · exact Or.inl
    · rintro (hx | rfl)
      · exact hx
      · exact h
  · simp [h]

theorem mem_foldl_addFileL (ws : List String) :
    ∀ (l : List String) (x : String), x ∈ ws.foldl addFileL l ↔ x ∈ l ∨ x ∈ ws := by
  induction ws with
  | nil => simp
  | cons w ws ih =>
    intro l x
    rw [List.foldl_cons, ih, mem_addFileL]
    simp only [List.mem_cons]
    tauto

theorem nodup_addFileL (f : String) (l : List String) (h : l.Nodup) :
    (addFileL l f).Nodup := by
  unfold addFileL
  by_cases hm : f ∈ l
  · simpa [hm] using h
  · simp [hm, List.nodup_append, h]

theorem nodup_foldl_addFileL (ws : List String) :
    ∀ l : List String, l.Nodup → (ws.foldl addFileL l).Nodup := by
  induction ws with
  | nil => exact fun l h => h
  | cons w ws ih =>
    intro l h
    exact ih _ (nodup_addFileL w l h)

/-! ### Lemmas: the encode loop -/

theorem encodeLoop_attempted (id : String) (enc : variant → EncodeOutcome) :
    ∀ (vs : List variant) (fs : FS),
      (encodeLoop fs id enc vs).2.2.1 = attemptedOf enc vs := by
  intro vs
  induction vs with
  | nil => intro fs; rfl
  | cons v vs ih =>
    intro fs
    by_cases h : (enc v).ok = true <;> simp [encodeLoop, attemptedOf, h, ih]

theorem encodeLoop_success (id : String) (enc : variant → EncodeOutcome) :
    ∀ (vs : List variant) (fs : FS),
      (encodeLoop fs id enc vs).2.2.2 = runSuccess enc vs := by
  intro vs
  induction vs with
  | nil => intro fs; rfl
  | cons v vs ih =>
    intro fs
    by_cases h : (enc v).ok = true <;> simp [encodeLoop, runSuccess, List.all_cons, h, ih]

theorem encodeLoop_traceLen (id : String) (enc : variant → EncodeOutcome) :
    ∀ (vs : List variant) (fs : FS),
      (encodeLoop fs id enc vs).2.1.length = (attemptedOf enc vs).length := by
  intro vs
  induction vs with
  | nil => intro fs; rfl
  | cons v vs ih =>
    intro fs
    by_cases h : (enc v).ok = true <;> simp [encodeLoop, attemptedOf, h, ih]

theorem loopFiles_nil (enc : variant → EncodeOutcome) (L : List String) :
    loopFiles enc [] L = L := rfl

theorem loopFiles_cons_ok (enc : variant → EncodeOutcome) (v : variant) (vs : List variant)
    (L : List String) (h : (enc v).ok = true) :
    loopFiles enc (v :: vs) L = loopFiles enc vs ((enc v).written.foldl addFileL L) := by
  have hA : attemptedOf enc (v :: vs) = v :: attemptedOf enc vs := by
    simp only [attemptedOf, h, if_true]
  unfold loopFiles
  rw [hA, List.foldl_cons]

theorem loopFiles_cons_fail (enc : variant → EncodeOutcome) (v : variant) (vs : List variant)
    (L : List String) (h : (enc v).ok = false) :
    loopFiles enc (v :: vs) L = (enc v).written.foldl addFileL L := by
  have hA : attemptedOf enc (v :: vs) = [v] := by
    simp [attemptedOf, h]
  unfold loopFiles
  rw [hA, List.foldl_cons, List.foldl_nil]

theorem encodeLoop_final_entries (id : String) (enc : variant → EncodeOutcome) :
    ∀ (vs : List variant) (fs : FS) (L : List String),
      entriesNamed fs id = [⟨id, true, L⟩] →
      entriesNamed (encodeLoop fs id enc vs).1 id = [⟨id, true, loopFiles enc vs L⟩] := by
  intro vs
  induction vs with
  | nil => intro fs L h; simpa [encodeLoop, loopFiles_nil] using h
  | cons v vs ih =>
    intro fs L h
    have h1 : entriesNamed (writeFiles fs id (enc v).written) id =
        [⟨id, true, (enc v).written.foldl addFileL L⟩] :=
      entriesNamed_updateDir_single fs id _ L h
    by_cases hok : (enc v).ok = true
    · rw [loopFiles_cons_ok enc v vs L hok]
      simpa [encodeLoop, hok] using ih (writeFiles fs id (enc v).written) _ h1
    · have hok' : (enc v).ok = false := by simpa using hok
      rw [loopFiles_cons_fail enc v vs L hok']
      simpa [encodeLoop, hok'] using h1

theorem encodeLoop_trace_entries (id : String) (enc : variant → EncodeOutcome) :
    ∀ (vs : List variant) (fs : FS) (L : List String),
      entriesNamed fs id = [⟨id, true, L⟩] →
      ∀ fsi ∈ (encodeLoop fs id enc vs).2.1, ∃ Li,
        entriesNamed fsi id = [⟨id, true, Li⟩] ∧
        ∀ x ∈ Li, x ∈ L ∨ ∃ v ∈ vs, x ∈ (enc v).written := by
  intro vs
  induction vs with
  | nil => intro fs L h fsi hfsi; simp [encodeLoop] at hfsi
  | cons v vs ih =>
    intro fs L h fsi hfsi
    have h1 : entriesNamed (writeFiles fs id (enc v).written) id =
        [⟨id, true, (enc v).written.foldl addFileL L⟩] :=
      entriesNamed_updateDir_single fs id _ L h
    have hmem1 : ∀ x ∈ (enc v).written.foldl addFileL L,
        x ∈ L ∨ ∃ w ∈ v :: vs, x ∈ (enc w).written := by
      intro x hx
      rcases (mem_foldl_addFileL _ _ _).1 hx with hx | hx
      · exact Or.inl hx
      · exact Or.inr ⟨v, List.mem_cons_self v vs, hx⟩
    by_cases hok : (enc v).ok = true
    · simp only [encodeLoop, hok, if_true] at hfsi
      rcases List.mem_cons.1 hfsi with rfl | hfsi
      · exact ⟨_, h1, hmem1⟩
      · rcases ih (writeFiles fs id (enc v).written) _ h1 fsi hfsi with ⟨Li, hLi, hsub⟩
        refine ⟨Li, hLi, fun x hx => ?_⟩
        rcases hsub x hx with hx' | ⟨w, hw, hxw⟩
        · exact hmem1 x hx'
        · exact Or.inr ⟨w, List.mem_cons_of_mem v hw, hxw⟩
    · have hok' : (enc v).ok = false := by simpa using hok
      simp only [encodeLoop, hok', Bool.false_eq_true, if_false, List.mem_singleton] at hfsi
      subst hfsi
      exact ⟨_, h1, hmem1⟩

theorem mem_loopFiles (enc : variant → EncodeOutcome) (vs : List variant)
    (L : List String) (x : String) :
    x ∈ loopFiles enc vs L ↔ x ∈ L ∨ ∃ v ∈ attemptedOf enc vs, x ∈ (enc v).written := by
  unfold loopFiles
  generalize attemptedOf enc vs = ws
  induction ws generalizing L with
  | nil => simp
  | cons w ws ih =>
    rw [List.foldl_cons, ih, mem_foldl_addFileL]
    constructor
    · rintro ((hx | hx) | ⟨u, hu, hxu⟩)
      · exact Or.inl hx
      · exact Or.inr ⟨w, List.mem_cons_self w ws, hx⟩
      · exact Or.inr ⟨u, List.mem_cons_of_mem w hu, hxu⟩
    · rintro (hx | ⟨u, hu, hxu⟩)
      · exact Or.inl (Or.inl hx)
      · rcases List.mem_cons.1 hu with rfl | hu
        · exact Or.inl (Or.inr hxu)
        · exact Or.inr ⟨u, hu, hxu⟩

theorem nodup_loopFiles (enc : variant → EncodeOutcome) (vs : List variant)
    (L : List String) (h : L.Nodup) : (loopFiles enc vs L).Nodup := by
  unfold loopFiles
  generalize attemptedOf enc vs = ws
  induction ws generalizing L with
  | nil => exact h
  | cons w ws ih =>
    rw [List.foldl_cons]
    exact ih _ (nodup_foldl_addFileL _ _ h)

/-! ### Lemmas: the attempted-variant list -/

theorem attemptedOf_subset (enc : variant → EncodeOutcome) :
    ∀ vs : List variant, attemptedOf enc vs ⊆ vs := by
  intro vs
  induction vs with
  | nil => simp [attemptedOf]
  | cons v vs ih =>
    by_cases h : (enc v).ok = true
    · simpa [attemptedOf, h] using List.cons_subset_cons v ih
    · simp [attemptedOf, h]

theorem attemptedOf_all_ok (enc : variant → EncodeOutcome) :
    ∀ vs : List variant, (∀ v ∈ vs, (enc v).ok = true) → attemptedOf enc vs = vs := by
  intro vs
  induction vs with
  | nil => intro _; rfl
  | cons v vs ih =>
    intro h
    have hv := h v (List.mem_cons_self v vs)
    rw [attemptedOf, hv]
    simp [ih (fun w hw => h w (List.mem_cons_of_mem v hw))]

theorem attemptedOf_first_fail (enc : variant → EncodeOutcome) :
    ∀ vs : List variant, (∃ v ∈ vs, (enc v).ok = false) →
      attemptedOf enc vs = vs.take (vs.findIdx (fun v => !(enc v).ok) + 1) := by
  intro vs
  induction vs with
  | nil => rintro ⟨v, hv, _⟩; simp at hv
  | cons v vs ih =>
    rintro ⟨w, hw, hwf⟩
    by_cases h : (enc v).ok = true
    · have hwvs : w ∈ vs := by
        rcases List.mem_cons.1 hw with rfl | hwvs
        · rw [h] at hwf; cases hwf
        · exact hwvs
      rw [attemptedOf, h, if_pos rfl, List.findIdx_cons]
      simp only [h, Bool.not_true]
      simp only [cond_false]
      rw [List.take_succ_cons, ih ⟨w, hwvs, hwf⟩]
    · have h' : (enc v).ok = false := by simpa using h
      rw [attemptedOf, h', List.findIdx_cons]
      simp [h']

theorem runSuccess_false_of_fail (enc : variant → EncodeOutcome) (vs : List variant)
    (h : ∃ v ∈ vs, (enc v).ok = false) : runSuccess enc vs = false := by
  rcases h with ⟨v, hv, hvf⟩
  unfold runSuccess
  rw [← Bool.not_eq_true, List.all_eq_true]
  intro hall
  have := hall v hv
  rw [hvf] at this
  cases this

/-! ### Lemmas: the conversion orchestrator -/

theorem convert_final_def (fs : FS) (id : String) (enc : variant → EncodeOutcome) (w : Bool) :
    (convertToHLS fs id enc w).final =
      (let fs2 := mkdirAll (removeAll fs id) id
       let r := encodeLoop fs2 id enc HLS_VARIANTS
       if r.2.2.2 && w then writeFile r.1 id "master.m3u8" else removeAll r.1 id) := by
  unfold convertToHLS
  by_cases h1 : (encodeLoop (mkdirAll (removeAll fs id) id) id enc HLS_VARIANTS).2.2.2 = true <;>
    by_cases h2 : w = true <;> simp [h1, h2]

theorem convert_attempted_eq (fs : FS) (id : String) (enc : variant → EncodeOutcome) (w : Bool) :
    (convertToHLS fs id enc w).attempted = attemptedOf enc HLS_VARIANTS := by
  unfold convertToHLS
  by_cases h1 : (encodeLoop (mkdirAll (removeAll fs id) id) id enc HLS_VARIANTS).2.2.2 = true <;>
    by_cases h2 : w = true <;>
      simp [h1, h2, encodeLoop_attempted]

theorem convert_trace_def (fs : FS) (id : String) (enc : variant → EncodeOutcome) (w : Bool) :
    (convertToHLS fs id enc w).trace =
      fs :: removeAll fs id :: mkdirAll (removeAll fs id) id ::
        ((encodeLoop (mkdirAll (removeAll fs id) id) id enc HLS_VARIANTS).2.1 ++
          [(convertToHLS fs id enc w).final]) := by
  rw [convert_final_def]
  unfold convertToHLS
  by_cases h1 : (encodeLoop (mkdirAll (removeAll fs id) id) id enc HLS_VARIANTS).2.2.2 = true <;>
    by_cases h2 : w = true <;> simp [h1, h2]

theorem convert_final_entries (fs : FS) (id : String) (enc : variant → EncodeOutcome) (w : Bool) :
    entriesNamed (convertToHLS fs id enc w).final id =
      if runSuccess enc HLS_VARIANTS && w then
        [⟨id, true, addFileL (loopFiles enc HLS_VARIANTS []) "master.m3u8"⟩]
      else [] := by
  rw [convert_final_def]
  have hreset := entriesNamed_reset fs id
  have hloop := encodeLoop_final_entries id enc HLS_VARIANTS (mkdirAll (removeAll fs id) id) [] hreset
  have hsucc := encodeLoop_success id enc HLS_VARIANTS (mkdirAll (removeAll fs id) id)
  simp only [hsucc]
  by_cases hc : (runSuccess enc HLS_VARIANTS && w) = true
  · rw [if_pos hc, if_pos hc]
    unfold writeFile
    exact entriesNamed_updateDir_single _ id _ _ hloop
  · rw [if_neg hc, if_neg hc]
    exact entriesNamed_removeAll _ id

theorem convert_statusOf_final (fs : FS) (id : String) (enc : variant → EncodeOutcome) (w : Bool) :
    statusOf (convertToHLS fs id enc w).final id =
      if runSuccess enc HLS_VARIANTS && w then JobStatus.Ready else JobStatus.Absent := by
  have h := convert_final_entries fs id enc w
  by_cases hc : (runSuccess enc HLS_VARIANTS && w) = true
  · rw [if_pos hc] at h
    rw [if_pos hc, statusOf_of_dir _ _ _ h]
    have hm : "master.m3u8" ∈ addFileL (loopFiles enc HLS_VARIANTS []) "master.m3u8" :=
      (mem_addFileL _ _ _).2 (Or.inr rfl)
    simp [hm]
  · rw [if_neg hc] at h
    rw [if_neg hc]
    exact statusOf_of_nil _ _ h

/-! ### Lemmas: decimal rendering -/

theorem decAux_acc : ∀ (fuel n : Nat) (acc : List Char),
    decAux fuel n acc = decAux fuel n [] ++ acc := by
  intro fuel
  induction fuel with
  | zero => intro n acc; simp [decAux]
  | succ fuel ih =>
    intro n acc
    by_cases h : n < 10
    · simp [decAux, h]
    · simp only [decAux, h, if_false]
      rw [ih (n / 10) (digitChar (n % 10) :: acc), ih (n / 10) [digitChar (n % 10)]]
      simp

theorem digitVal_digitChar (d : Nat) (h : d < 10) : digitVal (digitChar d) = d := by
  interval_cases d <;> rfl

theorem decAux_val : ∀ (fuel n : Nat), n < fuel → digitsVal (decAux fuel n []) = n := by
  intro fuel
  induction fuel with
  | zero => intro n h; omega
  | succ fuel ih =>
    intro n h
    by_cases h10 : n < 10
    · simp only [decAux, h10, if_true]
      simp [digitsVal, digitVal_digitChar n h10]
    · simp only [decAux, h10, if_false]
      rw [decAux_acc]
      unfold digitsVal
      rw [List.foldl_append]
      have hd : n / 10 < fuel := by
        have h1 : n / 10 < n := Nat.div_lt_self (by omega) (by omega)
        omega
      have hiv := ih (n / 10) hd
      unfold digitsVal at hiv
      rw [hiv]
      simp [digitVal_digitChar (n % 10) (Nat.mod_lt n (by omega))]
      omega

theorem decRepr_val (n : Nat) : digitsVal (decRepr n) = n :=
  decAux_val (n + 1) n (Nat.lt_succ_self n)

theorem decRepr_inj (m n : Nat) (h : decRepr m = decRepr n) : m = n := by
  rw [← decRepr_val m, ← decRepr_val n, h]

theorem digitChar_eq_mod (n : Nat) : digitChar n = digitChar (n % 10) := by
  unfold digitChar
  congr 1
  omega

theorem decAux_digits : ∀ (fuel n : Nat) (acc : List Char),
    (∀ c ∈ acc, ∃ d, d < 10 ∧ c = digitChar d) →
    ∀ c ∈ decAux fuel n acc, ∃ d, d < 10 ∧ c = digitChar d := by
  intro fuel
  induction fuel with
  | zero => intro n acc hacc; simpa [decAux] using hacc
  | succ fuel ih =>
    intro n acc hacc c hc
    by_cases h10 : n < 10
    · simp only [decAux, h10, if_true] at hc
      rcases List.mem_cons.1 hc with rfl | hc
      · exact ⟨n % 10, by omega, digitChar_eq_mod n⟩
      · exact hacc c hc
    · simp only [decAux, h10, if_false] at hc
      refine ih (n / 10) (digitChar (n % 10) :: acc) ?_ c hc
      intro c hc
      rcases List.mem_cons.1 hc with rfl | hc
      · exact ⟨n % 10, by omega, digitChar_eq_mod (n % 10) ▸ rfl⟩
      · exact hacc c hc

theorem decRepr_digits (n : Nat) : ∀ c ∈ decRepr n, ∃ d, d < 10 ∧ c = digitChar d :=
  decAux_digits (n + 1) n [] (by simp)

theorem digitChar_props (d : Nat) (h : d < 10) :
    digitChar d ≠ '_' ∧ digitChar d ≠ '/' ∧ (digitChar d).toNat ≠ 0 := by
  interval_cases d <;> refine ⟨by decide, by decide, by decide⟩

theorem underscore_not_mem_decRepr (n : Nat) : '_' ∉ decRepr n := by
  intro hm
  rcases decRepr_digits n '_' hm with ⟨d, hd, hdc⟩
  exact (digitChar_props d hd).1 hdc.symm

/-! ### Lemmas: the identifier generator -/

theorem takeWhile_append_underscore : ∀ (l r : List Char),
    (∀ c ∈ l, (c != '_') = true) →
    (l ++ '_' :: r).takeWhile (fun c => c != '_') = l := by
  intro l
  induction l with
  | nil => intro r h; simp [List.takeWhile_cons]
  | cons c cs ih =>
    intro r h
    have hc := h c (List.mem_cons_self c cs)
    rw [List.cons_append, List.takeWhile_cons, hc]
    simp only [if_true]
    rw [ih r (fun x hx => h x (List.mem_cons_of_mem c hx))]

theorem underscore_block_inj (p1 p2 d1 d2 : List Char) (h1 : '_' ∉ d1) (h2 : '_' ∉ d2)
    (he : p1 ++ '_' :: d1 = p2 ++ '_' :: d2) : d1 = d2 := by
  have hr := congrArg List.reverse he
  simp only [List.reverse_append, List.reverse_cons, List.append_assoc,
    List.singleton_append] at hr
  have ht1 : ∀ c ∈ d1.reverse, (c != '_') = true := by
    intro c hc
    have hcm : c ∈ d1 := List.mem_reverse.1 hc
    have hne : c ≠ '_' := fun hcc => h1 (hcc ▸ hcm)
    simpa using hne
  have ht2 : ∀ c ∈ d2.reverse, (c != '_') = true := by
    intro c hc
    have hcm : c ∈ d2 := List.mem_reverse.1 hc
    have hne : c ≠ '_' := fun hcc => h2 (hcc ▸ hcm)
    simpa using hne
  have hw := congrArg (List.takeWhile (fun c => c != '_')) hr
  rw [takeWhile_append_underscore _ _ ht1, takeWhile_append_underscore _ _ ht2] at hw
  exact List.reverse_injective hw

theorem newID_data (t c : Nat) :
    (newID t c).data = ("video_".data ++ decRepr t) ++ '_' :: decRepr c := by
  simp [newID, decStr, String.data_append]

theorem newID_counter_inj (t1 c1 t2 c2 : Nat) (h : c1 ≠ c2) :
    newID t1 c1 ≠ newID t2 c2 := by
  intro he
  have hd := congrArg String.data he
  rw [newID_data, newID_data] at hd
  have := underscore_block_inj _ _ _ _ (underscore_not_mem_decRepr c1)
    (underscore_not_mem_decRepr c2) hd
  exact h (decRepr_inj c1 c2 this)

theorem newID_safe (t c : Nat) : isSafeName (newID t c) := by
  have hdata : (newID t c).data =
      'v' :: 'i' :: 'd' :: 'e' :: 'o' :: '_' :: (decRepr t ++ '_' :: decRepr c) := by
    rw [newID_data]
    simp
  have hchar : ∀ x ∈ (newID t c).data, x ≠ '/' ∧ x.toNat ≠ 0 := by
    intro x hx
    rw [hdata] at hx
    rcases List.mem_cons.1 hx with rfl | hx
    · exact ⟨by decide, by decide⟩
    rcases List.mem_cons.1 hx with rfl | hx
    · exact ⟨by decide, by decide⟩
    rcases List.mem_cons.1 hx with rfl | hx
    · exact ⟨by decide, by decide⟩
    rcases List.mem_cons.1 hx with rfl | hx
    · exact ⟨by decide, by decide⟩
    rcases List.mem_cons.1 hx with rfl | hx
    · exact ⟨by decide, by decide⟩
    rcases List.mem_cons.1 hx with rfl | hx
    · exact ⟨by decide, by decide⟩
    rcases List.mem_append.1 hx with hx | hx
    · rcases decRepr_digits t x hx with ⟨d, hd, rfl⟩
      exact ⟨(digitChar_props d hd).2.1, (digitChar_props d hd).2.2⟩
    rcases List.mem_cons.1 hx with rfl | hx
    · exact ⟨by decide, by decide⟩
    · rcases decRepr_digits c x hx with ⟨d, hd, rfl⟩
      exact ⟨(digitChar_props d hd).2.1, (digitChar_props d hd).2.2⟩
  refine ⟨?_, ?_, ?_, fun x hx => hchar x hx⟩
  · intro h0
    have := congrArg String.data h0
    rw [hdata] at this
    simp at this
  · intro h0
    have := congrArg String.data h0
    rw [hdata] at this
    have h1 : ('.' : Char) :: [] = ('.' : Char) :: [] := rfl
    rw [show ("." : String).data = ['.'] from rfl] at this
    exact absurd (List.head_eq_of_cons_eq this) (by decide)
  · intro h0
    have := congrArg String.data h0
    rw [hdata] at this
    rw [show (".." : String).data = ['.', '.'] from rfl] at this
    exact absurd (List.head_eq_of_cons_eq this) (by decide)

/-! ### Lemmas: status probe under unique names -/

theorem find?_some_spec (fs : FS) (id : String) (e : RootEntry)
    (hf : fs.find? (fun x : RootEntry => x.name == id && x.isDir) = some e) :
    e ∈ fs ∧ e.name = id ∧ e.isDir = true := by
  have h1 := List.mem_of_find?_eq_some hf
  have h2 := List.find?_some hf
  simp only [Bool.and_eq_true, beq_iff_eq] at h2
  exact ⟨h1, h2.1, h2.2⟩

theorem find?_of_nodup (id : String) (e : RootEntry) :
    ∀ fs : FS, (fs.map RootEntry.name).Nodup → e ∈ fs → e.name = id → e.isDir = true →
      fs.find? (fun x : RootEntry => x.name == id && x.isDir) = some e := by
  intro fs
  induction fs with
  | nil => intro _ he; cases he
  | cons a fs ih =>
    intro hnd he hname hdir
    have hnd2 : (∀ x ∈ fs, ¬ x.name = a.name) ∧ (fs.map RootEntry.name).Nodup := by
      simpa using hnd
    rcases List.mem_cons.1 he with rfl | he'
    · rw [List.find?_cons_of_pos (p := fun x : RootEntry => x.name == id && x.isDir) fs
        (by simp [hname, hdir])]
    · have hna : a.name ≠ id := fun hq => hnd2.1 e he' (hname.trans hq.symm)
      rw [List.find?_cons_of_neg (p := fun x : RootEntry => x.name == id && x.isDir) fs
        (by simp [hna])]
      exact ih hnd2.2 he' hname hdir

theorem find?_none_iff_not_dirExists (fs : FS) (id : String) :
    fs.find? (fun x : RootEntry => x.name == id && x.isDir) = none ↔ ¬ dirExists fs id := by
  rw [List.find?_eq_none]
  unfold dirExists
  constructor
  · rintro h ⟨e, he, hn, hd⟩
    exact h e he (by simp [hn, hd])
  · intro h e he hp
    simp only [Bool.and_eq_true, beq_iff_eq] at hp
    exact h ⟨e, he, hp.1, hp.2⟩

/-! ### Lemmas: bandwidth arithmetic -/

theorem digitsVal_append_zeros (l : List Char) :
    digitsVal (l ++ ['0', '0', '0']) = 1000 * digitsVal l := by
  unfold digitsVal
  rw [List.foldl_append]
  have h0 : digitVal '0' = 0 := by decide
  simp [h0]
  ring

/-! ### Claim theorems -/

/-- Claim C7: for every bitrate string of the form `<n>k` with `<n>` decimal
digits, the bandwidth rendered into the manifest is `<n>` followed by `000`,
which reads in decimal as one thousand times the value of `<n>`. -/
theorem bandwidth_rendering (v : variant) (d : String)
    (h1 : v.vbitrate = d ++ "k") (h2 : ∀ ch ∈ d.data, ch.isDigit = true) :
    bandwidthOf v = d ++ "000" ∧
    digitsVal (bandwidthOf v).data = 1000 * digitsVal d.data := by
  have hb : bandwidthOf v = d ++ "000" := by
    unfold bandwidthOf
    rw [h1, trimSuffix_append]
  refine ⟨hb, ?_⟩
  rw [hb, String.data_append]
  have h000 : ("000" : String).data = ['0', '0', '0'] := rfl
  rw [h000, digitsVal_append_zeros]

theorem bandwidth_rendering_witness :
    (("800k" : String) = "800" ++ "k" ∧ (∀ ch ∈ ("800" : String).data, ch.isDigit = true)) ∧
    (("6000k" : String) = "6000" ++ "k" ∧ (∀ ch ∈ ("6000" : String).data, ch.isDigit = true)) ∧
    (bandwidthOf ⟨"360p", "360", "800k", "640"⟩ = "800" ++ "000" ∧
      digitsVal (bandwidthOf ⟨"360p", "360", "800k", "640"⟩).data =
        1000 * digitsVal ("800" : String).data) ∧
    (bandwidthOf ⟨"1080p", "1080", "6000k", "1920"⟩ = "6000" ++ "000" ∧
      digitsVal (bandwidthOf ⟨"1080p", "1080", "6000k", "1920"⟩).data =
        1000 * digitsVal ("6000" : String).data) :=
  ⟨⟨by decide, by decide⟩, ⟨by decide, by decide⟩,
    bandwidth_rendering ⟨"360p", "360", "800k", "640"⟩ "800" (by decide) (by decide),
    bandwidth_rendering ⟨"1080p", "1080", "6000k", "1920"⟩ "6000" (by decide) (by decide)⟩

/-- Claim C8: identifiers from the generator are distinct whenever their
counter values differ, whatever the timestamps, and every identifier is safe
as a single filesystem name component. -/
theorem id_uniqueness_and_safety (t1 c1 t2 c2 t c : Nat) (h : c1 ≠ c2) :
    newID t1 c1 ≠ newID t2 c2 ∧ isSafeName (newID t c) :=
  ⟨newID_counter_inj t1 c1 t2 c2 h, newID_safe t c⟩

theorem id_uniqueness_and_safety_witness :
    (1 : Nat) ≠ 2 ∧ (newID 5 1 ≠ newID 5 2 ∧ isSafeName (newID 3 4)) :=
  ⟨by decide, id_uniqueness_and_safety 5 1 5 2 3 4 (by decide)⟩

/-- Claim C9: deleting a job with no output entry and deleting an absent
upload are no-ops answered with a normal redirect, and both deletions are
idempotent. -/
theorem delete_noop_idempotent (fs fs2 : FS) (ups ups2 : List String) (id name : String)
    (hid : id ≠ "") (hname : name ≠ "")
    (habs : ∀ e ∈ fs, e.name ≠ id) (hupabs : name ∉ ups) :
    deleteHLSHandler fs id = (fs, Resp.redirect) ∧
    deleteUploadHandler ups name = (ups, Resp.redirect) ∧
    deleteHLSHandler (deleteHLSHandler fs2 id).1 id = deleteHLSHandler fs2 id ∧
    deleteUploadHandler (deleteUploadHandler ups2 name).1 name =
      deleteUploadHandler ups2 name := by
  refine ⟨?_, ?_, ?_, ?_⟩
  · unfold deleteHLSHandler
    rw [if_neg hid]
    have hre : removeAll fs id = fs := by
      unfold removeAll
      apply List.filter_eq_self.2
      intro e he
      simpa using habs e he
    rw [hre]
  · unfold deleteUploadHandler
    rw [if_neg hname]
    have hre : removeUpload ups name = ups := by
      unfold removeUpload
      apply List.filter_eq_self.2
      intro f hf
      have hne : f ≠ name := fun hq => hupabs (hq ▸ hf)
      simpa using hne
    rw [hre]
  · unfold deleteHLSHandler
    rw [if_neg hid]
    simp only [if_neg hid]
    have hre : removeAll (removeAll fs2 id) id = removeAll fs2 id := by
      unfold removeAll
      rw [List.filter_filter]
      simp
    rw [hre]
  · unfold deleteUploadHandler
    rw [if_neg hname]
    simp only [if_neg hname]
    have hre : removeUpload (removeUpload ups2 name) name = removeUpload ups2 name := by
      unfold removeUpload
      rw [List.filter_filter]
      simp
    rw [hre]

theorem delete_noop_idempotent_witness :
    (("y" : String) ≠ "" ∧ ("w.mp4" : String) ≠ "" ∧
      (∀ e ∈ ([⟨"x", true, []⟩] : FS), e.name ≠ "y") ∧
      ("w.mp4" : String) ∉ (["u.mp4"] : List String)) ∧
    (deleteHLSHandler [⟨"x", true, []⟩] "y" = ([⟨"x", true, []⟩], Resp.redirect) ∧
      deleteUploadHandler ["u.mp4"] "w.mp4" = (["u.mp4"], Resp.redirect) ∧
      deleteHLSHandler (deleteHLSHandler [⟨"y", true, []⟩] "y").1 "y" =
        deleteHLSHandler [⟨"y", true, []⟩] "y" ∧
      deleteUploadHandler (deleteUploadHandler ["w.mp4"] "w.mp4").1 "w.mp4" =
        deleteUploadHandler ["w.mp4"] "w.mp4") :=
  ⟨⟨by decide, by decide, by decide, by decide⟩,
    delete_noop_idempotent [⟨"x", true, []⟩] [⟨"y", true, []⟩] ["u.mp4"] ["w.mp4"] "y" "w.mp4"
      (by decide) (by decide) (by decide) (by decide)⟩

/-- Claim C10: the reconvert handler starts a conversion only on a definite
does-not-exist probe of the output directory; any other stat outcome,
including errors, yields a silent redirect with no conversion and no error
response. -/
theorem reconvert_stat_guard (filename : String) (stOut stIn : StatOutcome)
    (hf : filename ≠ "") (h : stOut ≠ StatOutcome.notFound) :
    reconvertHandler filename stOut stIn = ⟨Resp.redirect, none⟩ := by
  unfold reconvertHandler
  rw [if_neg hf, if_pos h]

theorem reconvert_stat_guard_witness :
    (("b.mp4" : String) ≠ "" ∧ StatOutcome.failed ≠ StatOutcome.notFound) ∧
    reconvertHandler "b.mp4" StatOutcome.failed StatOutcome.found = ⟨Resp.redirect, none⟩ :=
  ⟨⟨by decide, by decide⟩,
    reconvert_stat_guard "b.mp4" StatOutcome.failed StatOutcome.found (by decide) (by decide)⟩

/-- Claim C6: a reconvert request for a file whose derived id already has an
output directory (job Processing or Ready) starts no conversion and answers
with a normal redirect. -/
theorem reconvert_duplicate_noop (fs : FS) (filename : String) (stIn : StatOutcome)
    (hf : filename ≠ "") (h : statusOf fs (deriveID filename) ≠ JobStatus.Absent) :
    reconvertHandler filename (statEntry fs (deriveID filename)) stIn =
      ⟨Resp.redirect, none⟩ := by
  have hdir : ∃ e ∈ fs, e.name = deriveID filename ∧ e.isDir = true := by
    by_contra hno
    apply h
    have hnone : fs.find? (fun x : RootEntry => x.name == deriveID filename && x.isDir) = none :=
      (find?_none_iff_not_dirExists fs _).2 (fun hq => hno hq)
    unfold statusOf
    rw [hnone]
  rcases hdir with ⟨e, he, hn, _⟩
  have hany : fs.any (fun x => x.name == deriveID filename) = true :=
    List.any_eq_true.2 ⟨e, he, by simp [hn]⟩
  have hfound : statEntry fs (deriveID filename) = StatOutcome.found := by
    unfold statEntry
    rw [hany]
    simp
  rw [hfound]
  unfold reconvertHandler
  rw [if_neg hf, if_pos (by simp : StatOutcome.found ≠ StatOutcome.notFound)]

theorem reconvert_duplicate_noop_witness :
    (("a.mp4" : String) ≠ "" ∧
      statusOf ([⟨"a", true, []⟩] : FS) (deriveID "a.mp4") ≠ JobStatus.Absent) ∧
    reconvertHandler "a.mp4" (statEntry [⟨"a", true, []⟩] (deriveID "a.mp4"))
      StatOutcome.notFound = ⟨Resp.redirect, none⟩ :=
  ⟨⟨by decide, by decide⟩,
    reconvert_duplicate_noop [⟨"a", true, []⟩] "a.mp4" StatOutcome.notFound
      (by decide) (by decide)⟩

/-- Claim C1: when some variant's encode fails, the loop stops at the first
failure (later variants are not attempted) and the run ends with the job's
output directory gone (status `Absent`), whatever earlier variants wrote; a
manifest-write failure ends the same way. -/
theorem convert_failure_resets (fs : FS) (id : String) (enc : variant → EncodeOutcome)
    (writeOk : Bool)
    (h : (∃ v ∈ HLS_VARIANTS, (enc v).ok = false) ∨ writeOk = false) :
    statusOf (convertToHLS fs id enc writeOk).final id = JobStatus.Absent ∧
    (∀ e ∈ (convertToHLS fs id enc writeOk).final, e.name ≠ id) ∧
    ((∃ v ∈ HLS_VARIANTS, (enc v).ok = false) →
      (convertToHLS fs id enc writeOk).attempted =
        HLS_VARIANTS.take (HLS_VARIANTS.findIdx (fun v => !(enc v).ok) + 1)) := by
  have hcond : (runSuccess enc HLS_VARIANTS && writeOk) = false := by
    rcases h with hf | hw
    · rw [runSuccess_false_of_fail enc _ hf]
      simp
    · rw [hw]
      simp
  refine ⟨?_, ?_, ?_⟩
  · rw [convert_statusOf_final, hcond]
    simp
  · intro e he
    rw [convert_final_def] at he
    have hs := encodeLoop_success id enc HLS_VARIANTS (mkdirAll (removeAll fs id) id)
    simp only [hs, hcond, Bool.false_eq_true, if_false] at he
    exact mem_removeAll_ne _ id e he
  · intro hf
    rw [convert_attempted_eq]
    exact attemptedOf_first_fail enc HLS_VARIANTS hf

theorem convert_failure_resets_witness :
    ((∃ v ∈ HLS_VARIANTS, (encFail v).ok = false) ∨ (true : Bool) = false) ∧
    (statusOf (convertToHLS [] "j" encFail true).final "j" = JobStatus.Absent ∧
      (∀ e ∈ (convertToHLS [] "j" encFail true).final, e.name ≠ "j") ∧
      ((∃ v ∈ HLS_VARIANTS, (encFail v).ok = false) →
        (convertToHLS [] "j" encFail true).attempted =
          HLS_VARIANTS.take (HLS_VARIANTS.findIdx (fun v => !(encFail v).ok) + 1))) :=
  ⟨Or.inl (by decide), convert_failure_resets [] "j" encFail true (Or.inl (by decide))⟩

/-- Claim C4: every run first deletes the job's directory and recreates it
empty before producing output, the entries it leaves for the job id are
independent of the prior filesystem state, and every file left in the job
directory was produced by this run (no stale files survive). -/
theorem rerun_replaces_directory (fs : FS) (id : String) (enc : variant → EncodeOutcome)
    (w : Bool) :
    ((convertToHLS fs id enc w).trace.take 3 =
      [fs, removeAll fs id, mkdirAll (removeAll fs id) id]) ∧
    jobFiles (mkdirAll (removeAll fs id) id) id = some [] ∧
    entriesNamed (convertToHLS fs id enc w).final id =
      entriesNamed (convertToHLS [] id enc w).final id ∧
    (∀ e ∈ (convertToHLS fs id enc w).final, e.name = id →
      ∀ f ∈ e.files, f = "master.m3u8" ∨ ∃ v ∈ HLS_VARIANTS, f ∈ (enc v).written) := by
  refine ⟨?_, ?_, ?_, ?_⟩
  · rw [convert_trace_def]
    rfl
  · exact jobFiles_of_dir _ _ _ (entriesNamed_reset fs id)
  · rw [convert_final_entries, convert_final_entries]
  · intro e he hename f hf
    have hent := convert_final_entries fs id enc w
    have hee : e ∈ entriesNamed (convertToHLS fs id enc w).final id := by
      unfold entriesNamed
      exact List.mem_filter.2 ⟨he, by simp [hename]⟩
    rw [hent] at hee
    by_cases hc : (runSuccess enc HLS_VARIANTS && w) = true
    · rw [if_pos hc] at hee
      have he2 : e = ⟨id, true, addFileL (loopFiles enc HLS_VARIANTS []) "master.m3u8"⟩ := by
        simpa using hee
      rw [he2] at hf
      rcases (mem_addFileL _ _ _).1 hf with hf1 | rfl
      · rcases (mem_loopFiles enc HLS_VARIANTS [] f).1 hf1 with h0 | ⟨v, hv, hw1⟩
        · simp at h0
        · exact Or.inr ⟨v, attemptedOf_subset enc HLS_VARIANTS hv, hw1⟩
      · exact Or.inl rfl
    · rw [if_neg hc] at hee
      simp at hee

/-- Claim C2: the status probe yields Ready exactly when the job directory
exists and holds `master.m3u8`, Processing exactly when the directory exists
without it, Absent exactly when no directory exists; and the job listing
enumerates exactly the directory entries under the root, with their status. -/
theorem status_probe_and_listing (fs : FS) (id : String)
    (hnd : (fs.map RootEntry.name).Nodup) :
    (statusOf fs id = JobStatus.Ready ↔ dirExists fs id ∧ masterExists fs id) ∧
    (statusOf fs id = JobStatus.Processing ↔ dirExists fs id ∧ ¬ masterExists fs id) ∧
    (statusOf fs id = JobStatus.Absent ↔ ¬ dirExists fs id) ∧
    ((listJobs fs).map Prod.fst = (fs.filter (fun e => e.isDir)).map RootEntry.name) ∧
    (∀ p ∈ listJobs fs, p.2 = statusOf fs p.1) := by
  have hlist1 : (listJobs fs).map Prod.fst =
      (fs.filter (fun e => e.isDir)).map RootEntry.name := by
    unfold listJobs
    rw [List.map_map]
    rfl
  have hlist2 : ∀ p ∈ listJobs fs, p.2 = statusOf fs p.1 := by
    intro p hp
    unfold listJobs at hp
    rcases List.mem_map.1 hp with ⟨e, hef, rfl⟩
    have hmem := List.mem_filter.1 hef
    have hfind := find?_of_nodup e.name e fs hnd hmem.1 rfl hmem.2
    unfold statusOf
    rw [hfind]
  cases hf : fs.find? (fun x : RootEntry => x.name == id && x.isDir) with
  | none =>
    have hnde := (find?_none_iff_not_dirExists fs id).1 hf
    have habs : statusOf fs id = JobStatus.Absent := by
      unfold statusOf
      rw [hf]
    refine ⟨?_, ?_, ?_, hlist1, hlist2⟩
    · constructor
      · intro hq
        rw [habs] at hq
        cases hq
      · rintro ⟨hd, _⟩
        exact absurd hd hnde
    · constructor
      · intro hq
        rw [habs] at hq
        cases hq
      · rintro ⟨hd, _⟩
        exact absurd hd hnde
    · simp [habs, hnde]
  | some e =>
    rcases find?_some_spec fs id e hf with ⟨he, hn, hd⟩
    have hde : dirExists fs id := ⟨e, he, hn, hd⟩
    have hstat : statusOf fs id =
        if "master.m3u8" ∈ e.files then JobStatus.Ready else JobStatus.Processing := by
      unfold statusOf
      rw [hf]
    by_cases hm : "master.m3u8" ∈ e.files
    · have hr : statusOf fs id = JobStatus.Ready := by rw [hstat, if_pos hm]
      have hme : masterExists fs id := ⟨e, he, hn, hd, hm⟩
      refine ⟨?_, ?_, ?_, hlist1, hlist2⟩
      · simp [hr, hde, hme]
      · constructor
        · intro hq
          rw [hr] at hq
          cases hq
        · rintro ⟨_, hnm⟩
          exact absurd hme hnm
      · constructor
        · intro hq
          rw [hr] at hq
          cases hq
        · intro hq
          exact absurd hde hq
    · have hp : statusOf fs id = JobStatus.Processing := by rw [hstat, if_neg hm]
      have hnme : ¬ masterExists fs id := by
        rintro ⟨e2, he2, hn2, hd2, hm2⟩
        have hf2 := find?_of_nodup id e2 fs hnd he2 hn2 hd2
        rw [hf] at hf2
        have he2e : e = e2 := by
          injection hf2
        rw [← he2e] at hm2
        exact hm hm2
      refine ⟨?_, ?_, ?_, hlist1, hlist2⟩
      · constructor
        · intro hq
          rw [hp] at hq
          cases hq
        · rintro ⟨_, hme⟩
          exact absurd hme hnme
      · simp [hp, hde, hnme]
      · constructor
        · intro hq
          rw [hp] at hq
          cases hq
        · intro hq
          exact absurd hde hq

theorem status_probe_and_listing_witness :
    (([⟨"a", true, ["master.m3u8"]⟩, ⟨"b", false, []⟩, ⟨"c", true, []⟩] :
        FS).map RootEntry.name).Nodup ∧
    ((statusOf [⟨"a", true, ["master.m3u8"]⟩, ⟨"b", false, []⟩, ⟨"c", true, []⟩] "a" =
        JobStatus.Ready ↔
      dirExists [⟨"a", true, ["master.m3u8"]⟩, ⟨"b", false, []⟩, ⟨"c", true, []⟩] "a" ∧
      masterExists [⟨"a", true, ["master.m3u8"]⟩, ⟨"b", false, []⟩, ⟨"c", true, []⟩] "a") ∧
    (statusOf [⟨"a", true, ["master.m3u8"]⟩, ⟨"b", false, []⟩, ⟨"c", true, []⟩] "a" =
        JobStatus.Processing ↔
      dirExists [⟨"a", true, ["master.m3u8"]⟩, ⟨"b", false, []⟩, ⟨"c", true, []⟩] "a" ∧
      ¬ masterExists [⟨"a", true, ["master.m3u8"]⟩, ⟨"b", false, []⟩, ⟨"c", true, []⟩] "a") ∧
    (statusOf [⟨"a", true, ["master.m3u8"]⟩, ⟨"b", false, []⟩, ⟨"c", true, []⟩] "a" =
        JobStatus.Absent ↔
      ¬ dirExists [⟨"a", true, ["master.m3u8"]⟩, ⟨"b", false, []⟩, ⟨"c", true, []⟩] "a") ∧
    ((listJobs [⟨"a", true, ["master.m3u8"]⟩, ⟨"b", false, []⟩, ⟨"c", true, []⟩]).map
        Prod.fst =
      (([⟨"a", true, ["master.m3u8"]⟩, ⟨"b", false, []⟩, ⟨"c", true, []⟩] : FS).filter
          (fun e => e.isDir)).map RootEntry.name) ∧
    (∀ p ∈ listJobs [⟨"a", true, ["master.m3u8"]⟩, ⟨"b", false, []⟩, ⟨"c", true, []⟩],
      p.2 = statusOf [⟨"a", true, ["master.m3u8"]⟩, ⟨"b", false, []⟩, ⟨"c", true, []⟩] p.1)) :=
  ⟨by decide,
    status_probe_and_listing
      [⟨"a", true, ["master.m3u8"]⟩, ⟨"b", false, []⟩, ⟨"c", true, []⟩] "a" (by decide)⟩

/-- Claim C3: the manifest splits into the exact two header lines followed,
in input order, by one `#EXT-X-STREAM-INF` line per variant each immediately
followed by that variant's sub-playlist file name `stream_<name>.m3u8`, and
it contains exactly one `#EXT-X-STREAM-INF` line per variant. -/
theorem manifest_structure (vs : List variant) (h : ∀ v ∈ vs, noNl v) :
    splitOnNl (buildManifest vs).data =
      "#EXTM3U".data :: "#EXT-X-VERSION:3".data ::
        (vs.flatMap (fun v => [(streamInfLine v).data, (subPlaylistFile v).data]) ++ [[]]) ∧
    (∀ v ∈ vs, leadsWith "#EXT-X-STREAM-INF".data (streamInfLine v).data = true ∧
      subPlaylistFile v = "stream_" ++ v.name ++ ".m3u8") ∧
    (splitOnNl (buildManifest vs).data).countP (leadsWith "#EXT-X-STREAM-INF".data) =
      vs.length := by
  refine ⟨splitOnNl_buildManifest vs h, fun v _ => ⟨leadsWith_streamInfLine v, rfl⟩, ?_⟩
  rw [splitOnNl_buildManifest vs h]
  have h1 : leadsWith "#EXT-X-STREAM-INF".data "#EXTM3U".data = false := by decide
  have h2 : leadsWith "#EXT-X-STREAM-INF".data "#EXT-X-VERSION:3".data = false := by decide
  rw [List.countP_cons, List.countP_cons, h1, h2, countP_manifest]
  simp

theorem manifest_structure_witness :
    (∀ v ∈ HLS_VARIANTS, noNl v) ∧
    (splitOnNl (buildManifest HLS_VARIANTS).data =
      "#EXTM3U".data :: "#EXT-X-VERSION:3".data ::
        (HLS_VARIANTS.flatMap
          (fun v => [(streamInfLine v).data, (subPlaylistFile v).data]) ++ [[]]) ∧
    (∀ v ∈ HLS_VARIANTS, leadsWith "#EXT-X-STREAM-INF".data (streamInfLine v).data = true ∧
      subPlaylistFile v = "stream_" ++ v.name ++ ".m3u8") ∧
    (splitOnNl (buildManifest HLS_VARIANTS).data).countP
        (leadsWith "#EXT-X-STREAM-INF".data) = HLS_VARIANTS.length) :=
  ⟨by decide, manifest_structure HLS_VARIANTS (by decide)⟩

theorem count_eq_one_of_nodup_mem (l : List String) (a : String)
    (hn : l.Nodup) (hm : a ∈ l) : l.count a = 1 := by
  have h1 : l.count a ≤ 1 := List.nodup_iff_count_le_one.1 hn a
  have h2 : 0 < l.count a := List.count_pos_iff.2 hm
  omega

/-- Claim C5: on a fresh root with all encodes succeeding, the run's observed
status passes through Absent, then Processing for the directory creation and
every encode step, and reaches Ready only at the final manifest write; the
final directory holds exactly one manifest, exactly one sub-playlist per
variant, at least one segment file per variant, and nothing this run did not
produce (the manifest is the sole ready signal). -/
theorem success_lifecycle (fs : FS) (id : String) (enc : variant → EncodeOutcome)
    (h0 : statusOf fs id = JobStatus.Absent)
    (hok : ∀ v ∈ HLS_VARIANTS, (enc v).ok = true)
    (hnm : ∀ v ∈ HLS_VARIANTS, "master.m3u8" ∉ (enc v).written)
    (hsp : ∀ v ∈ HLS_VARIANTS, subPlaylistFile v ∈ (enc v).written)
    (hseg : ∀ v ∈ HLS_VARIANTS, ∃ f ∈ (enc v).written, isSegmentFile v f) :
    ((convertToHLS fs id enc true).trace.map (fun s => statusOf s id) =
      JobStatus.Absent :: JobStatus.Absent ::
        (List.replicate (HLS_VARIANTS.length + 1) JobStatus.Processing ++
          [JobStatus.Ready])) ∧
    (∃ F, jobFiles (convertToHLS fs id enc true).final id = some F ∧
      F.count "master.m3u8" = 1 ∧
      (∀ v ∈ HLS_VARIANTS, F.count (subPlaylistFile v) = 1) ∧
      (∀ v ∈ HLS_VARIANTS, ∃ f ∈ F, isSegmentFile v f) ∧
      (∀ f ∈ F, f = "master.m3u8" ∨ ∃ v ∈ HLS_VARIANTS, f ∈ (enc v).written)) := by
  have hsucc : runSuccess enc HLS_VARIANTS = true := by
    unfold runSuccess
    rw [List.all_eq_true]
    exact hok
  have hcond : (runSuccess enc HLS_VARIANTS && true) = true := by
    rw [hsucc]
    rfl
  have hatt : attemptedOf enc HLS_VARIANTS = HLS_VARIANTS := attemptedOf_all_ok enc _ hok
  have hent := convert_final_entries fs id enc true
  rw [if_pos hcond] at hent
  have hjf : jobFiles (convertToHLS fs id enc true).final id =
      some (addFileL (loopFiles enc HLS_VARIANTS []) "master.m3u8") :=
    jobFiles_of_dir _ _ _ hent
  have hnodup : (addFileL (loopFiles enc HLS_VARIANTS []) "master.m3u8").Nodup :=
    nodup_addFileL _ _ (nodup_loopFiles enc HLS_VARIANTS [] List.nodup_nil)
  have hmemF : ∀ x, x ∈ addFileL (loopFiles enc HLS_VARIANTS []) "master.m3u8" ↔
      x = "master.m3u8" ∨ ∃ v ∈ HLS_VARIANTS, x ∈ (enc v).written := by
    intro x
    rw [mem_addFileL, mem_loopFiles, hatt]
    simp only [List.not_mem_nil, false_or]
    exact or_comm
  constructor
  · rw [convert_trace_def]
    simp only [List.map_cons, List.map_append, List.map_nil]
    have habs1 : statusOf (removeAll fs id) id = JobStatus.Absent :=
      statusOf_of_nil _ _ (entriesNamed_removeAll fs id)
    have hproc : statusOf (mkdirAll (removeAll fs id) id) id = JobStatus.Processing := by
      rw [statusOf_of_dir _ _ _ (entriesNamed_reset fs id)]
      simp
    have hfinal : statusOf (convertToHLS fs id enc true).final id = JobStatus.Ready := by
      rw [convert_statusOf_final, if_pos hcond]
    have hmap : (encodeLoop (mkdirAll (removeAll fs id) id) id enc HLS_VARIANTS).2.1.map
        (fun s => statusOf s id) =
        List.replicate HLS_VARIANTS.length JobStatus.Processing := by
      apply List.eq_replicate_iff.2
      constructor
      · rw [List.length_map, encodeLoop_traceLen, hatt]
      · intro b hb
        rcases List.mem_map.1 hb with ⟨fsi, hfsi, rfl⟩
        rcases encodeLoop_trace_entries id enc HLS_VARIANTS _ [] (entriesNamed_reset fs id)
          fsi hfsi with ⟨Li, hLi, hsub⟩
        rw [statusOf_of_dir _ _ _ hLi]
        have hmni : "master.m3u8" ∉ Li := by
          intro hmem
          rcases hsub _ hmem with h1 | ⟨v, hv, h2⟩
          · simp at h1
          · exact hnm v hv h2
        rw [if_neg hmni]
    rw [h0, habs1, hproc, hmap, hfinal, List.replicate_succ]
    simp
  · refine ⟨addFileL (loopFiles enc HLS_VARIANTS []) "master.m3u8", hjf, ?_, ?_, ?_, ?_⟩
    · exact count_eq_one_of_nodup_mem _ _ hnodup ((hmemF _).2 (Or.inl rfl))
    · intro v hv
      exact count_eq_one_of_nodup_mem _ _ hnodup ((hmemF _).2 (Or.inr ⟨v, hv, hsp v hv⟩))
    · intro v hv
      rcases hseg v hv with ⟨f, hfw, hfseg⟩
      exact ⟨f, (hmemF f).2 (Or.inr ⟨v, hv, hfw⟩), hfseg⟩
    · intro f hf
      exact (hmemF f).1 hf

theorem success_lifecycle_witness :
    (statusOf ([] : FS) "j" = JobStatus.Absent ∧
      (∀ v ∈ HLS_VARIANTS, (encGood v).ok = true) ∧
      (∀ v ∈ HLS_VARIANTS, "master.m3u8" ∉ (encGood v).written) ∧
      (∀ v ∈ HLS_VARIANTS, subPlaylistFile v ∈ (encGood v).written) ∧
      (∀ v ∈ HLS_VARIANTS, ∃ f ∈ (encGood v).written, isSegmentFile v f)) ∧
    (((convertToHLS [] "j" encGood true).trace.map (fun s => statusOf s "j") =
      JobStatus.Absent :: JobStatus.Absent ::
        (List.replicate (HLS_VARIANTS.length + 1) JobStatus.Processing ++
          [JobStatus.Ready])) ∧
    (∃ F, jobFiles (convertToHLS [] "j" encGood true).final "j" = some F ∧
      F.count "master.m3u8" = 1 ∧
      (∀ v ∈ HLS_VARIANTS, F.count (subPlaylistFile v) = 1) ∧
      (∀ v ∈ HLS_VARIANTS, ∃ f ∈ F, isSegmentFile v f) ∧
      (∀ f ∈ F, f = "master.m3u8" ∨ ∃ v ∈ HLS_VARIANTS, f ∈ (encGood v).written))) := by
  have hseg : ∀ v ∈ HLS_VARIANTS, ∃ f ∈ (encGood v).written, isSegmentFile v f := by
    intro v hv
    fin_cases hv
    · exact ⟨"360p_segment_000.ts", by decide, 0, by decide, by decide⟩
    · exact ⟨"540p_segment_000.ts", by decide, 0, by decide, by decide⟩
    · exact ⟨"720p_segment_000.ts", by decide, 0, by decide, by decide⟩
    · exact ⟨"1080p_segment_000.ts", by decide, 0, by decide, by decide⟩
  exact ⟨⟨by decide, by decide, by decide, by decide, hseg⟩,
    success_lifecycle [] "j" encGood (by decide) (by decide) (by decide) (by decide) hseg⟩

end VideoStreamer
